import Mathlib

/-!
Verification of the `Preprocessor` pipeline (Word-Spotting repository,
`OELP_Word2/preprocessor.py`) against its natural-language specification.

The Python module is shallowly embedded: grayscale images become a record of
two dimensions and a pixel function into `ℚ`, batches become records of image
and text lists, and every fallible code path (list indexing, `None` images,
`assert`) is made explicit with `Option`.  Randomness (`random.randint`) is
modelled as an injected source of draws; the deterministic paths the claims
exercise never consult it.
-/

namespace WordSpotting

/-- A 2-D grayscale image: `shape0 × shape1` array of intensities.
Pixel values live in `ℚ` (integral `[0,255]` on input, `[-1/2,1/2]` after
normalization); `pix r c` is the intensity at row `r`, column `c`. -/
structure Img where
  shape0 : Nat
  shape1 : Nat
  pix : Nat → Nat → ℚ

/-- A batch as produced by the external loader (`dataloader_iam.Batch`):
positionally paired images and ground-truth texts plus an explicit size.
An image may be absent (`none`), the loader's sentinel for a damaged file. -/
structure Batch where
  imgs : List (Option Img)
  gtTexts : List String
  batchSize : Nat

/-- The preprocessor's configuration fields, as stored by `__init__`. -/
structure Preproc where
  imgSize : Nat × Nat
  padding : Nat
  dynamic_width : Bool
  data_augmentation : Bool
  line_mode : Bool

/-- `Preprocessor.__init__`: the two `assert` statements reject the
configuration before it is constructed; a failed assertion is `none`. -/
def mkPreprocessor (imgSize : Nat × Nat) (padding : Nat)
    (dynamic_width data_augmentation line_mode : Bool) : Option Preproc :=
  if dynamic_width && data_augmentation then none
  else if padding > 0 && !dynamic_width then none
  else some ⟨imgSize, padding, dynamic_width, data_augmentation, line_mode⟩

/-- The loop body of `_truncate_label`, carrying the previous character (the
Python code reads `text[i-1]`; `none` at position 0) and the running cost.
Each kept character is emitted; the first position where the cumulative cost
exceeds `maxLen` drops the rest, mirroring `return text[:i]`. -/
def truncGo : List Char → Option Char → Int → Int → List Char
  | [], _, _, _ => []
  | c :: rest, prev, cost, maxLen =>
    let cost' := cost + (if prev = some c then 2 else 1)
    if cost' > maxLen then []
    else c :: truncGo rest (some c) cost' maxLen

/-- `Preprocessor._truncate_label`. -/
def truncate_label (text : String) (maxLen : Int) : String :=
  ⟨truncGo text.data none 0 maxLen⟩

/-- Cumulative CTC cost of a character list read after `prev`: each character
costs 1, a character equal to its immediate predecessor costs 2.  This is the
specification's cost function, used to characterize `truncate_label`. -/
def costList : Option Char → List Char → Int
  | _, [] => 0
  | prev, c :: rest => (if prev = some c then 2 else 1) + costList (some c) rest

/-- Cost of the first `n` characters of `text` (specification side). -/
def costUpTo (text : List Char) (n : Nat) : Int :=
  costList none (text.take n)

/-- `Preprocessor.process_img`.  An absent image is replaced by
`np.zeros(self.img_size[::-1])`, a black canvas with the target size
reversed; then the image is transposed (`cv2.transpose`) and every intensity
is mapped to `v / 255 - 0.5`. -/
def process_img (P : Preproc) (img : Option Img) : Img :=
  let img0 : Img := match img with
    | none => ⟨P.imgSize.2, P.imgSize.1, fun _ _ => 0⟩
    | some i => i
  { shape0 := img0.shape1
    shape1 := img0.shape0
    pix := fun r c => img0.pix c r / 255 - 1/2 }

/-- `' '.join` on a list of strings. -/
def join_space : List String → String
  | [] => ""
  | [t] => t
  | t :: ts => t ++ " " ++ join_space ts

/-- Effectful map over `Option`, mirroring a Python list comprehension whose
element expression can raise (here: out-of-range indexing, `None` images). -/
def optMap {α β : Type} (f : α → Option β) : List α → Option (List β)
  | [] => some []
  | a :: as => do
    let b ← f a
    let bs ← optMap f as
    pure (b :: bs)

/-- The injected source of random draws.  `random.randint(1, 8)` for batch
position `i` is modelled as `1 + numDraw i % 8`; `random.randint(20, 50)` for
the separator following word `j` of position `i` as `20 + sepDraw i j % 31`.
Both are consulted only when data augmentation is enabled. -/
structure Rand where
  numDraw : Nat → Nat
  sepDraw : Nat → Nat → Nat

/-- Number of words pasted into the line at batch position `i`
(`random.randint(1, 8) if self.data_augmentation else default_num_words`). -/
def numWords (P : Preproc) (R : Rand) (i : Nat) : Nat :=
  if P.data_augmentation then 1 + R.numDraw i % 8 else 5

/-- Width of the separator preceding word `j + 1` at batch position `i`
(`random.randint(20, 50) if self.data_augmentation else default_word_sep`). -/
def sepWidth (P : Preproc) (R : Rand) (i j : Nat) : Nat :=
  if P.data_augmentation then 20 + R.sepDraw i j % 31 else 30

/-- The `word_seps` list built by `_simulate_text_line`: a leading `0`
followed by the separator drawn at each iteration `j` with `j + 1 < nw`. -/
def lineSeps (P : Preproc) (R : Rand) (i nw : Nat) : List Nat :=
  (List.range nw).map (fun j => if j = 0 then 0 else sepWidth P R i (j - 1))

/-- Image at flat index `k` of the batch, present or not
(`batch.imgs[k]` followed by use of the array). -/
def getImg (b : Batch) (k : Nat) : Option Img :=
  (b.imgs.get? k).bind id

/-- `target[y:y + src.shape0, x:x + src.shape1] = src`: numpy slice
assignment of a whole source image into the canvas (the slice fits, so no
clipping arises). -/
def pasteImg (target : Img) (src : Img) (y x : Nat) : Img :=
  { target with
    pix := fun r c =>
      if y ≤ r ∧ r < y + src.shape0 ∧ x ≤ c ∧ c < x + src.shape1
      then src.pix (r - y) (c - x)
      else target.pix r c }

/-- The pasting loop of `_simulate_text_line`: for each selected image and
its separator, advance the cursor by the separator, paste at vertical center
`(h - shape0) / 2`, advance by the image width. -/
def pasteAll : Img → Nat → List (Img × Nat) → Img
  | target, _, [] => target
  | target, x, (im, sep) :: rest =>
    pasteAll (pasteImg target im ((target.shape0 - im.shape0) / 2) (x + sep))
      (x + sep + im.shape1) rest

/-- One iteration of the batch loop of `_simulate_text_line`: the line image
and concatenated transcript for batch position `i`. -/
def simulate_one (P : Preproc) (R : Rand) (b : Batch) (i : Nat) :
    Option (Img × String) := do
  let nw := numWords P R i
  let texts ← optMap (fun j => b.gtTexts.get? ((i + j) % b.batchSize)) (List.range nw)
  let ws ← optMap (fun j => getImg b ((i + j) % b.batchSize)) (List.range nw)
  let seps := lineSeps P R i nw
  let h := ws.foldl (fun a im => max a im.shape0) 0
  let w := (ws.map Img.shape1).sum + seps.sum
  let target := pasteAll ⟨h, w, fun _ _ => 255⟩ 0 (ws.zip seps)
  pure (target, join_space texts)

/-- `Preprocessor._simulate_text_line`. -/
def simulate_text_line (P : Preproc) (R : Rand) (b : Batch) : Option Batch := do
  let pairs ← optMap (simulate_one P R b) (List.range b.batchSize)
  pure ⟨pairs.map (fun p => some p.1), pairs.map Prod.snd, b.batchSize⟩

/-- `Preprocessor.process_batch`.  `res_imgs[0]` on an empty list is an
`IndexError`, hence the `Option`. -/
def process_batch (P : Preproc) (R : Rand) (b : Batch) : Option Batch := do
  let b1 ← if P.line_mode then simulate_text_line P R b else pure b
  let res_imgs := b1.imgs.map (process_img P)
  let img0 ← res_imgs.get? 0
  let maxTextLen : Nat := img0.shape0 / 4
  let res_gt_texts := b1.gtTexts.map (fun t => truncate_label t maxTextLen)
  pure ⟨res_imgs.map some, res_gt_texts, b1.batchSize⟩

/-- Specification-side reading of a synthesized-line pixel: walk the selected
words with a horizontal cursor (advance by the separator, then by the word
width); a pixel inside the rectangle of a word pasted at top offset
`(h - shape0) / 2` reads that word, and a pixel in no rectangle reads the
white fill (`none` here; the caller supplies the fill as the default). -/
def scanPix (h : Nat) : Nat → List (Img × Nat) → Nat → Nat → Option ℚ
  | _, [], _, _ => none
  | x, (im, sep) :: rest, r, c =>
    if (h - im.shape0) / 2 ≤ r ∧ r < (h - im.shape0) / 2 + im.shape0 ∧
        x + sep ≤ c ∧ c < x + sep + im.shape1
    then some (im.pix (r - (h - im.shape0) / 2) (c - (x + sep)))
    else scanPix h (x + sep + im.shape1) rest r c

/-! Concrete inputs used by the claims' witnesses. -/

/-- A valid word-mode configuration. -/
def wordCfg : Preproc := ⟨(256, 32), 0, false, false, false⟩

/-- A valid line-mode configuration with augmentation disabled. -/
def lineCfg : Preproc := ⟨(256, 32), 0, false, false, true⟩

/-- A fixed source of draws (never consulted while augmentation is off). -/
def zeroRand : Rand := ⟨fun _ => 0, fun _ _ => 0⟩

/-- A 2×9 word image of constant intensity 10. -/
def wordImgA : Img := ⟨2, 9, fun _ _ => 10⟩

/-- A 3×5 word image of constant intensity 20. -/
def wordImgB : Img := ⟨3, 5, fun _ _ => 20⟩

/-- A two-element batch whose images have differing dimensions. -/
def twoBatch : Batch := ⟨[some wordImgA, some wordImgB], ["aabbccdd", "xxyyzz"], 2⟩

/-- A single-element batch. -/
def oneBatch : Batch := ⟨[some wordImgA], ["hi"], 1⟩

/-- The empty batch. -/
def emptyBatch : Batch := ⟨[], [], 0⟩

/-- C5: constructing the preprocessor fails when `dynamic_width` and
`data_augmentation` are both true, fails when `padding > 0` while
`dynamic_width` is false, and succeeds when both flags are false and the
padding is 0 — the rejection happens at construction, before any batch is
seen. -/
theorem construction_guards (sz : Nat × Nat) (p : Nat)
    (lm₁ lm₂ lm₃ aug : Bool) (hp : 0 < p) :
    mkPreprocessor sz p true true lm₁ = none ∧
    mkPreprocessor sz p false aug lm₂ = none ∧
    (mkPreprocessor sz 0 false false lm₃).isSome = true := by
  refine ⟨rfl, ?_, rfl⟩
  simp [mkPreprocessor, hp]

/-- Witness for C5 at `padding = 1`. -/
theorem construction_guards_witness :
    0 < 1 ∧
    (mkPreprocessor (256, 32) 1 true true false = none ∧
      mkPreprocessor (256, 32) 1 false false false = none ∧
      (mkPreprocessor (256, 32) 0 false false false).isSome = true) :=
  ⟨Nat.one_pos, construction_guards (256, 32) 1 false false false false Nat.one_pos⟩

/-- C6: on a present image, `process_img` is exactly transpose plus the
affine intensity map `v / 255 - 1/2` — the output dimensions are the input's
swapped, every output pixel is the transposed input pixel rescaled, and
nothing else happens.  Pixel value 0 maps to `-1/2`, 255 to `1/2`, and 128
to `1/510`, which is within `1/10000` of `0.0020`. -/
theorem process_img_normalizes (P : Preproc) (im : Img) (h w r c : Nat) :
    process_img P (some im) =
      ⟨im.shape1, im.shape0, fun r c => im.pix c r / 255 - 1/2⟩ ∧
    (process_img P (some im)).shape0 = im.shape1 ∧
    (process_img P (some im)).shape1 = im.shape0 ∧
    (process_img P (some im)).pix r c = im.pix c r / 255 - 1/2 ∧
    (process_img P (some ⟨h, w, fun _ _ => 0⟩)).pix r c = -(1/2) ∧
    (process_img P (some ⟨h, w, fun _ _ => 255⟩)).pix r c = 1/2 ∧
    (process_img P (some ⟨h, w, fun _ _ => 128⟩)).pix r c = 1/510 ∧
    |(process_img P (some ⟨h, w, fun _ _ => 128⟩)).pix r c - 0.0020| < 1/10000 := by
  refine ⟨rfl, rfl, rfl, rfl, by norm_num [process_img], by norm_num [process_img],
    by norm_num [process_img], ?_⟩
  rw [show (process_img P (some ⟨h, w, fun _ _ => 128⟩)).pix r c = 1/510 by
    norm_num [process_img]]
  rw [show (1/510 - 0.0020 : ℚ) = -(1/25500) by norm_num, abs_neg,
    abs_of_nonneg (by norm_num)]
  norm_num

/-- C7: an absent image is replaced by an all-zero canvas whose dimensions
are the configured target size reversed, and is then normalized exactly like
a present image (so every pixel of the result is `-1/2`); no error escapes. -/
theorem process_img_none_black_canvas (P : Preproc) (r c : Nat) :
    process_img P none =
      process_img P (some ⟨P.imgSize.2, P.imgSize.1, fun _ _ => 0⟩) ∧
    (process_img P none).shape0 = P.imgSize.1 ∧
    (process_img P none).shape1 = P.imgSize.2 ∧
    (process_img P none).pix r c = -(1/2) :=
  ⟨rfl, rfl, rfl, by norm_num [process_img]⟩

/-- The truncation loop, characterized by the cumulative cost of prefixes:
either the cost never exceeds the budget and the text survives whole, or the
first position whose cumulative cost exceeds the budget cuts the text there. -/
theorem truncGo_spec (rest : List Char) :
    ∀ (prev : Option Char) (cost maxLen : Int),
      (truncGo rest prev cost maxLen = rest ∧
        ∀ i, i < rest.length → cost + costList prev (rest.take (i + 1)) ≤ maxLen) ∨
      (∃ k, k < rest.length ∧ truncGo rest prev cost maxLen = rest.take k ∧
        maxLen < cost + costList prev (rest.take (k + 1)) ∧
        ∀ i, i < k → cost + costList prev (rest.take (i + 1)) ≤ maxLen) := by
  induction rest with
  | nil =>
    intro prev cost maxLen
    left
    exact ⟨rfl, by simp⟩
  | cons ch rest ih =>
    intro prev cost maxLen
    by_cases hc : cost + (if prev = some ch then 2 else 1) > maxLen
    · right
      refine ⟨0, by simp, by simp [truncGo, hc], ?_, by simp⟩
      simpa [costList] using hc
    · push_neg at hc
      have hgo : truncGo (ch :: rest) prev cost maxLen =
          ch :: truncGo rest (some ch) (cost + (if prev = some ch then 2 else 1)) maxLen := by
        simp [truncGo, not_lt.mpr hc]
      rcases ih (some ch) (cost + (if prev = some ch then 2 else 1)) maxLen with
        ⟨heq, hbd⟩ | ⟨k, hk, heq, hex, hbd⟩
      · left
        refine ⟨by rw [hgo, heq], ?_⟩
        intro i hi
        cases i with
        | zero => simpa [costList] using hc
        | succ j =>
          have hj := hbd j (by simpa using hi)
          simp only [List.take_succ_cons, costList]
          linarith
      · right
        refine ⟨k + 1, by simpa using hk, by rw [hgo, heq, List.take_succ_cons], ?_, ?_⟩
        · simp only [List.take_succ_cons, costList]
          linarith
        · intro i hi
          cases i with
          | zero => simpa [costList] using hc
          | succ j =>
            have hj := hbd j (by omega)
            simp only [List.take_succ_cons, costList]
            linarith

/-- C1: `truncate_label` walks the text left to right accumulating a cost of
1 per character, 2 for a character equal to its predecessor; the result is
the whole text when the cumulative cost never exceeds `maxLen`, and the
prefix before the first position whose cumulative cost exceeds it otherwise.
In particular `truncate_label "aabb" 4 = "aab"` and
`truncate_label "abc" 10 = "abc"`. -/
theorem truncate_label_spec (text : String) (maxLen : Int) :
    ((truncate_label text maxLen = text ∧
        ∀ i, i < text.length → costUpTo text.data (i + 1) ≤ maxLen) ∨
      (∃ k, k < text.length ∧ truncate_label text maxLen = ⟨text.data.take k⟩ ∧
        maxLen < costUpTo text.data (k + 1) ∧
        ∀ i, i < k → costUpTo text.data (i + 1) ≤ maxLen)) ∧
    truncate_label "aabb" 4 = "aab" ∧ truncate_label "abc" 10 = "abc" := by
  refine ⟨?_, by decide, by decide⟩
  rcases truncGo_spec text.data none 0 maxLen with ⟨heq, hbd⟩ | ⟨k, hk, heq, hex, hbd⟩
  · left
    refine ⟨?_, ?_⟩
    · show String.mk (truncGo text.data none 0 maxLen) = text
      rw [heq]
    · intro i hi
      simpa [costUpTo] using hbd i hi
  · right
    refine ⟨k, hk, ?_, by simpa [costUpTo] using hex, ?_⟩
    · show String.mk (truncGo text.data none 0 maxLen) = ⟨text.data.take k⟩
      rw [heq]
    · intro i hi
      simpa [costUpTo] using hbd i hi

/-- Each kept character raises the cumulative cost by at least 1, so the kept
prefix is never longer than the remaining budget (unless it is empty). -/
theorem truncGo_len (rest : List Char) :
    ∀ (prev : Option Char) (cost maxLen : Int),
      cost + ((truncGo rest prev cost maxLen).length : Int) ≤ maxLen ∨
      truncGo rest prev cost maxLen = [] := by
  induction rest with
  | nil => intro _ _ _; right; rfl
  | cons ch rest ih =>
    intro prev cost maxLen
    by_cases hc : cost + (if prev = some ch then 2 else 1) > maxLen
    · right
      simp [truncGo, hc]
    · push_neg at hc
      have hs1 : (1 : Int) ≤ (if prev = some ch then 2 else 1) := by
        split <;> norm_num
      rw [show truncGo (ch :: rest) prev cost maxLen =
          ch :: truncGo rest (some ch) (cost + (if prev = some ch then 2 else 1)) maxLen from
        by simp [truncGo, not_lt.mpr hc]]
      left
      rcases ih (some ch) (cost + (if prev = some ch then 2 else 1)) maxLen with h | h
      · simp only [List.length_cons]
        push_cast
        linarith
      · rw [h]
        simp only [List.length_cons, List.length_nil]
        push_cast
        linarith

/-- C9: the truncated label's length never exceeds a non-negative budget, and
a budget of 0 empties every text. -/
theorem truncate_label_length_le (text : String) (maxLen : Int) (h : 0 ≤ maxLen) :
    ((truncate_label text maxLen).length : Int) ≤ maxLen ∧
    truncate_label text 0 = "" := by
  constructor
  · rcases truncGo_len text.data none 0 maxLen with hl | hl
    · simpa [truncate_label, String.length] using hl
    · simpa [truncate_label, String.length, hl] using h
  · rcases truncGo_len text.data none 0 0 with hl | hl
    · have hz : truncGo text.data none 0 0 = [] := by
        have : (truncGo text.data none 0 0).length = 0 := by omega
        exact List.length_eq_zero.mp this
      show String.mk (truncGo text.data none 0 0) = ""
      rw [hz]
    · show String.mk (truncGo text.data none 0 0) = ""
      rw [hl]

/-- Witness for C9 at budget 5 (and 0). -/
theorem truncate_label_length_le_witness :
    (0 : Int) ≤ 5 ∧
    (((truncate_label "aabb" 5).length : Int) ≤ 5 ∧ truncate_label "aabb" 0 = "") :=
  ⟨by decide, truncate_label_length_le "aabb" 5 (by decide)⟩

/-- A successful `optMap` yields as many results as inputs. -/
theorem optMap_length {α β : Type} (f : α → Option β) :
    ∀ (xs : List α) (ys : List β), optMap f xs = some ys → ys.length = xs.length := by
  intro xs
  induction xs with
  | nil =>
    intro ys h
    simp only [optMap, Option.some.injEq] at h
    subst h
    rfl
  | cons a as ih =>
    intro ys h
    cases hfa : f a with
    | none => simp [optMap, hfa] at h
    | some b =>
      cases hrest : optMap f as with
      | none => simp [optMap, hfa, hrest] at h
      | some bs =>
        simp [optMap, hfa, hrest] at h
        subst h
        simp [ih bs hrest]

/-- A successful `optMap` maps position `i` of the input to position `i` of
the output through `f`. -/
theorem optMap_get {α β : Type} (f : α → Option β) :
    ∀ (xs : List α) (ys : List β), optMap f xs = some ys →
      ∀ (i : Nat) (a : α), xs.get? i = some a →
        ∃ y, f a = some y ∧ ys.get? i = some y := by
  intro xs
  induction xs with
  | nil =>
    intro ys _ i a ha
    simp at ha
  | cons x as ih =>
    intro ys h i a ha
    cases hfa : f x with
    | none => simp [optMap, hfa] at h
    | some b =>
      cases hrest : optMap f as with
      | none => simp [optMap, hfa, hrest] at h
      | some bs =>
        simp [optMap, hfa, hrest] at h
        subst h
        cases i with
        | zero =>
          have hxa : x = a := by simpa using ha
          subst hxa
          exact ⟨b, hfa, rfl⟩
        | succ j =>
          exact ih bs hrest j a (by simpa using ha)

/-- C4: `process_batch` preserves the batch-size invariant — when it
returns, the output has as many images and as many texts as the declared
size, which is the input's, with line mode on or off. -/
theorem process_batch_preserves_sizes (P : Preproc) (R : Rand) (b : Batch)
    (himgs : b.imgs.length = b.batchSize) (htexts : b.gtTexts.length = b.batchSize)
    (hs : (process_batch P R b).isSome = true) :
    (process_batch P R b).map
        (fun b' => (b'.imgs.length, b'.gtTexts.length, b'.batchSize)) =
      some (b.batchSize, b.batchSize, b.batchSize) := by
  cases hlm : P.line_mode with
  | false =>
    cases hbi : b.imgs with
    | nil =>
      exfalso
      simp [process_batch, hlm, hbi] at hs
    | cons oi rest =>
      have h1 : rest.length + 1 = b.batchSize := by simpa [hbi] using himgs
      simp [process_batch, hlm, hbi, h1, htexts, List.getElem?_cons_zero]
  | true =>
    cases hsim : simulate_text_line P R b with
    | none =>
      exfalso
      simp [process_batch, hlm, hsim] at hs
    | some b1 =>
      obtain ⟨pairs, hp, hb1⟩ :
          ∃ pairs, optMap (simulate_one P R b) (List.range b.batchSize) = some pairs ∧
            b1 = ⟨pairs.map (fun p => some p.1), pairs.map Prod.snd, b.batchSize⟩ := by
        cases hpp : optMap (simulate_one P R b) (List.range b.batchSize) with
        | none => simp [simulate_text_line, hpp] at hsim
        | some pairs =>
          refine ⟨pairs, rfl, ?_⟩
          simp [simulate_text_line, hpp] at hsim
          exact hsim.symm
      have hlen : pairs.length = b.batchSize := by
        simpa using optMap_length _ _ _ hp
      cases hpr : pairs with
      | nil =>
        exfalso
        rw [hpr] at hb1
        simp [process_batch, hlm, hsim, hb1] at hs
      | cons pr prs =>
        rw [hpr] at hb1 hlen
        have h1 : prs.length + 1 = b.batchSize := by simpa using hlen
        simp [process_batch, hlm, hsim, hb1, h1, List.getElem?_cons_zero]

/-- Witness for C4 on a line-mode batch of size 1. -/
theorem process_batch_preserves_sizes_witness :
    (oneBatch.imgs.length = oneBatch.batchSize ∧
      oneBatch.gtTexts.length = oneBatch.batchSize ∧
      (process_batch lineCfg zeroRand oneBatch).isSome = true) ∧
    (process_batch lineCfg zeroRand oneBatch).map
        (fun b' => (b'.imgs.length, b'.gtTexts.length, b'.batchSize)) =
      some (oneBatch.batchSize, oneBatch.batchSize, oneBatch.batchSize) :=
  ⟨⟨rfl, rfl, rfl⟩,
    process_batch_preserves_sizes lineCfg zeroRand oneBatch rfl rfl rfl⟩

/-- C2: with line mode off, the truncation cap is the first image's original
width (the first axis of the normalized, i.e. transposed, image) divided by
4, and it is applied uniformly to every text of the batch — the other
images' dimensions play no part. -/
theorem uniform_cap_from_first_width (P : Preproc) (R : Rand) (b : Batch)
    (img0 : Img) (hlm : P.line_mode = false)
    (h0 : b.imgs.get? 0 = some (some img0)) :
    (process_batch P R b).map Batch.gtTexts =
      some (b.gtTexts.map fun t => truncate_label t ((img0.shape1 / 4 : Nat) : Int)) := by
  cases hbi : b.imgs with
  | nil => simp [hbi] at h0
  | cons oi rest =>
    have hoi : oi = some img0 := by simpa [hbi] using h0
    simp [process_batch, hlm, hbi, hoi, process_img]

/-- Witness for C2 on a two-image batch of differing dimensions
(images 2×9 and 3×5; the cap is 9 / 4 = 2 for both texts). -/
theorem uniform_cap_from_first_width_witness :
    (wordCfg.line_mode = false ∧ twoBatch.imgs.get? 0 = some (some wordImgA)) ∧
    (process_batch wordCfg zeroRand twoBatch).map Batch.gtTexts =
      some (twoBatch.gtTexts.map fun t =>
        truncate_label t ((wordImgA.shape1 / 4 : Nat) : Int)) :=
  ⟨⟨rfl, rfl⟩, uniform_cap_from_first_width wordCfg zeroRand twoBatch wordImgA rfl rfl⟩

/-- The pasting loop never changes the canvas dimensions. -/
theorem pasteAll_shape (ws : List (Img × Nat)) :
    ∀ (target : Img) (x : Nat),
      (pasteAll target x ws).shape0 = target.shape0 ∧
      (pasteAll target x ws).shape1 = target.shape1 := by
  induction ws with
  | nil => intro target x; exact ⟨rfl, rfl⟩
  | cons p rest ih =>
    intro target x
    obtain ⟨im, sep⟩ := p
    simpa [pasteAll, pasteImg] using
      ih (pasteImg target im ((target.shape0 - im.shape0) / 2) (x + sep))
        (x + sep + im.shape1)

/-- Every rectangle the scan visits starts at or after the cursor, so a
column left of the cursor is in none of them. -/
theorem scanPix_none_of_lt (h : Nat) (ws : List (Img × Nat)) :
    ∀ (x r c : Nat), c < x → scanPix h x ws r c = none := by
  induction ws with
  | nil => intro x r c _; rfl
  | cons p rest ih =>
    intro x r c hc
    obtain ⟨im, sep⟩ := p
    have hreg : ¬((h - im.shape0) / 2 ≤ r ∧ r < (h - im.shape0) / 2 + im.shape0 ∧
        x + sep ≤ c ∧ c < x + sep + im.shape1) := by omega
    simp only [scanPix]
    rw [if_neg hreg]
    exact ih (x + sep + im.shape1) r c (by omega)

/-- The pasted rectangles are pairwise disjoint (each begins after the
previous one ends), so the sequential slice assignments of the loop read
back as the first-match scan over the rectangles, with the original canvas
underneath. -/
theorem pasteAll_pix (ws : List (Img × Nat)) :
    ∀ (target : Img) (x r c : Nat),
      (pasteAll target x ws).pix r c =
        (scanPix target.shape0 x ws r c).getD (target.pix r c) := by
  induction ws with
  | nil => intro target x r c; rfl
  | cons p rest ih =>
    intro target x r c
    obtain ⟨im, sep⟩ := p
    have hpaste := ih (pasteImg target im ((target.shape0 - im.shape0) / 2) (x + sep))
      (x + sep + im.shape1) r c
    by_cases hreg : (target.shape0 - im.shape0) / 2 ≤ r ∧
        r < (target.shape0 - im.shape0) / 2 + im.shape0 ∧
        x + sep ≤ c ∧ c < x + sep + im.shape1
    · have hnone : scanPix target.shape0 (x + sep + im.shape1) rest r c = none :=
        scanPix_none_of_lt _ _ _ _ _ (by omega)
      simp only [pasteAll, scanPix]
      rw [if_pos hreg, hpaste]
      rw [show (pasteImg target im ((target.shape0 - im.shape0) / 2) (x + sep)).shape0 =
        target.shape0 from rfl]
      rw [hnone]
      simp [pasteImg, hreg]
    · simp only [pasteAll, scanPix]
      rw [if_neg hreg, hpaste]
      rw [show (pasteImg target im ((target.shape0 - im.shape0) / 2) (x + sep)).shape0 =
        target.shape0 from rfl]
      rw [show (pasteImg target im ((target.shape0 - im.shape0) / 2) (x + sep)).pix r c =
        target.pix r c from by simp [pasteImg, hreg]]

/-- A successful `_simulate_text_line` is the per-position results, images
and transcripts in order, with the input's batch size. -/
theorem simulate_text_line_inv (P : Preproc) (R : Rand) (b : Batch) (b1 : Batch)
    (hsim : simulate_text_line P R b = some b1) :
    ∃ pairs, optMap (simulate_one P R b) (List.range b.batchSize) = some pairs ∧
      b1 = ⟨pairs.map (fun p => some p.1), pairs.map Prod.snd, b.batchSize⟩ := by
  cases hpp : optMap (simulate_one P R b) (List.range b.batchSize) with
  | none => simp [simulate_text_line, hpp] at hsim
  | some pairs =>
    refine ⟨pairs, rfl, ?_⟩
    simp [simulate_text_line, hpp] at hsim
    exact hsim.symm

/-- `simulate_one` with its `do`-notation and `let`s spelled out. -/
theorem simulate_one_eq (P : Preproc) (R : Rand) (b : Batch) (i : Nat) :
    simulate_one P R b i =
      Option.bind (optMap (fun j => b.gtTexts.get? ((i + j) % b.batchSize))
          (List.range (numWords P R i))) (fun texts =>
        Option.bind (optMap (fun j => getImg b ((i + j) % b.batchSize))
            (List.range (numWords P R i))) (fun ws =>
          some (pasteAll
            ⟨ws.foldl (fun a im => max a im.shape0) 0,
              (ws.map Img.shape1).sum + (lineSeps P R i (numWords P R i)).sum,
              fun _ _ => 255⟩
            0 (ws.zip (lineSeps P R i (numWords P R i))),
            join_space texts))) := rfl

/-- C3: with augmentation off (in line mode), position `i` of the
synthesized batch selects the 5 words at indices `(i+j) % batch_size`; its
transcript is their texts joined by single spaces; the canvas is as tall as
the tallest selected word and as wide as their widths plus 4 separators of
30; it is white (255) outside the words, and each word sits at top offset
`(canvas_height - word_height) / 2` with the cursor advancing by separator
then word width (the `scanPix` scan with separator list `[0,30,30,30,30]`).
With `batch_size = 1` the single text repeats 5 times, space-separated. -/
theorem line_synthesis_layout (P : Preproc) (R : Rand) (b : Batch)
    (hlm : P.line_mode = true) (haug : P.data_augmentation = false)
    (hs : (simulate_text_line P R b).isSome = true) :
    ∀ i, i < b.batchSize →
      ∃ ws ts,
        optMap (fun j => getImg b ((i + j) % b.batchSize)) (List.range 5) = some ws ∧
        optMap (fun j => b.gtTexts.get? ((i + j) % b.batchSize)) (List.range 5) =
          some ts ∧
        ((simulate_text_line P R b).bind fun b1 => b1.gtTexts.get? i) =
          some (join_space ts) ∧
        (∃ im, ((simulate_text_line P R b).bind fun b1 => b1.imgs.get? i) =
            some (some im) ∧
          im.shape0 = ws.foldl (fun a im' => max a im'.shape0) 0 ∧
          im.shape1 = (ws.map Img.shape1).sum + 4 * 30 ∧
          ∀ r c, im.pix r c =
            (scanPix im.shape0 0 (ws.zip [0, 30, 30, 30, 30]) r c).getD 255) ∧
        (b.batchSize = 1 → ∀ t, b.gtTexts.get? 0 = some t →
          join_space ts = t ++ " " ++ t ++ " " ++ t ++ " " ++ t ++ " " ++ t) := by
  intro i hi
  obtain ⟨b1, hsim⟩ := Option.isSome_iff_exists.mp hs
  obtain ⟨pairs, hp, hb1⟩ := simulate_text_line_inv P R b b1 hsim
  have hipos : (List.range b.batchSize).get? i = some i := List.get?_range hi
  obtain ⟨pair, hone, hpi⟩ := optMap_get _ _ _ hp i i hipos
  have h5 : numWords P R i = 5 := by simp [numWords, haug]
  have hseps : lineSeps P R i 5 = [0, 30, 30, 30, 30] := by
    simp only [lineSeps, sepWidth, haug, if_false, Bool.false_eq_true]
    decide
  rw [simulate_one_eq, h5, hseps] at hone
  cases hts : optMap (fun j => b.gtTexts.get? ((i + j) % b.batchSize)) (List.range 5) with
  | none =>
    exfalso
    rw [hts] at hone
    exact Option.noConfusion hone
  | some ts =>
    rw [hts, Option.some_bind] at hone
    cases hws : optMap (fun j => getImg b ((i + j) % b.batchSize)) (List.range 5) with
    | none =>
      exfalso
      rw [hws] at hone
      exact Option.noConfusion hone
    | some ws =>
      rw [hws, Option.some_bind] at hone
      obtain ⟨im1, gt1⟩ := pair
      simp only [Option.some.injEq, Prod.mk.injEq] at hone
      obtain ⟨him1, hgt1⟩ := hone
      refine ⟨ws, ts, rfl, rfl, ?_, ?_, ?_⟩
      · rw [hsim, hb1]
        show (pairs.map Prod.snd).get? i = some (join_space ts)
        rw [List.get?_map, hpi]
        simp [← hgt1]
      · refine ⟨im1, ?_, ?_, ?_, ?_⟩
        · rw [hsim, hb1]
          show (pairs.map fun p => some p.1).get? i = some (some im1)
          rw [List.get?_map, hpi]
          rfl
        · rw [← him1]
          exact (pasteAll_shape _ _ _).1
        · rw [← him1, (pasteAll_shape _ _ _).2]
          rfl
        · intro r c
          rw [← him1, pasteAll_pix, (pasteAll_shape _ _ _).1]
      · intro hbs1 t ht
        have ht' : b.gtTexts[0]? = some t := by
          rw [← List.get?_eq_getElem?]
          exact ht
        have hr5 : List.range 5 = [0, 1, 2, 3, 4] := rfl
        rw [hr5, hbs1] at hts
        simp [optMap, Nat.mod_one, ht'] at hts
        subst hts
        simp [join_space, String.append_assoc]

/-- Witness for C3 on a batch of size 1 (the word repeats 5 times). -/
theorem line_synthesis_layout_witness :
    (lineCfg.line_mode = true ∧ lineCfg.data_augmentation = false ∧
      (simulate_text_line lineCfg zeroRand oneBatch).isSome = true) ∧
    (∀ i, i < oneBatch.batchSize →
      ∃ ws ts,
        optMap (fun j => getImg oneBatch ((i + j) % oneBatch.batchSize))
          (List.range 5) = some ws ∧
        optMap (fun j => oneBatch.gtTexts.get? ((i + j) % oneBatch.batchSize))
          (List.range 5) = some ts ∧
        ((simulate_text_line lineCfg zeroRand oneBatch).bind
          fun b1 => b1.gtTexts.get? i) = some (join_space ts) ∧
        (∃ im, ((simulate_text_line lineCfg zeroRand oneBatch).bind
            fun b1 => b1.imgs.get? i) = some (some im) ∧
          im.shape0 = ws.foldl (fun a im' => max a im'.shape0) 0 ∧
          im.shape1 = (ws.map Img.shape1).sum + 4 * 30 ∧
          ∀ r c, im.pix r c =
            (scanPix im.shape0 0 (ws.zip [0, 30, 30, 30, 30]) r c).getD 255) ∧
        (oneBatch.batchSize = 1 → ∀ t, oneBatch.gtTexts.get? 0 = some t →
          join_space ts = t ++ " " ++ t ++ " " ++ t ++ " " ++ t ++ " " ++ t)) :=
  ⟨⟨rfl, rfl, rfl⟩, line_synthesis_layout lineCfg zeroRand oneBatch rfl rfl rfl⟩

/-- C10: on a batch with no images (and line mode off), `process_batch`
fails at the `res_imgs[0]` index instead of returning an empty batch. -/
theorem process_batch_empty_fails (P : Preproc) (R : Rand) (b : Batch)
    (hlm : P.line_mode = false) (hi : b.imgs = []) :
    process_batch P R b = none := by
  simp [process_batch, hlm, hi]

/-- Witness for C10 on the empty batch. -/
theorem process_batch_empty_fails_witness :
    wordCfg.line_mode = false ∧ emptyBatch.imgs = [] ∧
    process_batch wordCfg zeroRand emptyBatch = none :=
  ⟨rfl, rfl, process_batch_empty_fails wordCfg zeroRand emptyBatch rfl rfl⟩

end WordSpotting
